import Mathlib

/-!
Verification development for the block-compression estimation tool.

The tool reads blockchain blocks, filters out deposit transactions, and for
each remaining transaction estimates its marginal compressed size with two
estimators: a pure FastLZ level-1 output-length computation
(`FlzCompressLen`) and a stateful zlib-based sliding-window simulator
(`zlibBatchEstimator`).  Results are serialized as fixed 20-byte
little-endian records.

Conventions of the embedding:
* a byte is a `Nat` (inputs hold values `< 256`); a byte slice is `List Nat`;
* Go slice reads `ib[i]` panic when out of bounds, so every read in the
  FastLZ embedding is bounds-checked and the whole computation returns
  `Option Nat`; `none` marks an out-of-bounds read (or exhausted fuel for
  the loops, which are written as structural recursion on a fuel counter);
* machine integers are modelled by `Nat`; every place where 32-bit overflow
  or wraparound can change a result carries an explicit `% 4294967296`
  (hash multiplication, the returned delta cast, the `d := ip - r`
  subtraction, the `l--` in the match-cost accounting);
* the external zlib engine is not part of this repository; its only
  observable effect here is how many output bytes a `Write`+`Flush` of a
  chunk appends to the session's buffer.  That growth is abstracted as a
  parameter `outLen : history → chunk → Nat`, where `history` is the list
  of chunks written to the session since its last reset (the compression
  context).  All buffer-bookkeeping theorems are proved for every `outLen`.
-/

namespace Toolkit

/-- Bounds-checked byte read `ib[i]`; Go panics out of bounds, modelled as
`none`. -/
def byteAt (ib : List Nat) (i : Nat) : Option Nat := ib.get? i

/-- `u24(i) = uint32(ib[i]) | uint32(ib[i+1])<<8 | uint32(ib[i+2])<<16`
from `FlzCompressLen`. -/
def u24 (ib : List Nat) (i : Nat) : Option Nat :=
  (byteAt ib i).bind fun a =>
    (byteAt ib (i + 1)).bind fun b =>
      (byteAt ib (i + 2)).bind fun c => some (a + 256 * b + 65536 * c)

/-- `hash(v) = ((2654435769 * v) >> 19) & 0x1fff` on `uint32`: the product is
taken mod `2^32`, shifting right by 19 is division by `2^19`, masking with
`0x1fff` is `% 8192`. -/
def flzHash (v : Nat) : Nat := (2654435769 * v) % 4294967296 / 524288 % 8192

/-- `literals(r)`: `n += 0x21 * (r / 0x20); r %= 0x20; if r != 0 { n += r + 1 }`. -/
def litCost (r : Nat) : Nat :=
  33 * (r / 32) + (if r % 32 ≠ 0 then r % 32 + 1 else 0)

/-- `match(l)`: `l--; n += 3 * (l / 262); if l % 262 >= 6 { n += 3 } else { n += 2 }`.
The decrement is a `uint32` decrement, so `l = 0` wraps to `2^32 - 1`
(unreachable in the code: the match finder always hands it `l ≥ 1`). -/
def matchCost (l : Nat) : Nat :=
  let m := if l = 0 then 4294967295 else l - 1
  3 * (m / 262) + (if m % 262 ≥ 6 then 3 else 2)

/-- The hash table `ht` (8192 slots, zero-initialized by `make`); a slot maps
to the last position stored for that fingerprint. -/
def htSet (ht : Nat → Nat) (h v : Nat) : Nat → Nat :=
  fun j => if j = h then v else ht j

/-- The loop body of `cmp(p, q, e)` after `e -= q`: starting from offset `l`,
compare `ib[p+l]` with `ib[q+l]` while `l < e`; on a mismatch the code sets
`e = 0`, which exits after the `l++`, so a mismatch at offset `l` returns
`l + 1`; running off `e` returns `e`.  Structural recursion on `fuel`. -/
def cmpGo (ib : List Nat) (p q e : Nat) : Nat → Nat → Option Nat
  | 0, _ => none
  | fuel + 1, l =>
    if l < e then
      (byteAt ib (p + l)).bind fun x =>
        (byteAt ib (q + l)).bind fun y =>
          if x ≠ y then some (l + 1) else cmpGo ib p q e fuel (l + 1)
    else some l

/-- `cmp(p, q, lim)` of `FlzCompressLen`: greedy match extension comparing
`ib[p..]` against `ib[q..]` with exclusive end `lim` (the code's `e` before
`e -= q`).  The loop runs at most `lim - q` steps, so fuel `lim - q + 1`
suffices. -/
def cmp (ib : List Nat) (p q lim : Nat) : Option Nat :=
  cmpGo ib p q (lim - q) (lim - q + 1) 0

/-- The inner scan loop of `FlzCompressLen` (`for { s := u24(ip); ... }`):
hash the 3-byte window at `ip`, probe and update the table, and stop either
at the scan boundary (`ip >= ipLimit`, position unchanged) or after `ip++`
when a candidate within the 8191-byte backward offset matches the current
window.  `d` is the `uint32` difference `ip - r`.  The `&&` in
`d <= 0x1fff && s == u24(r)` short-circuits, so `u24(r)` is read only when
the offset test passes.  Returns `(table, ip, r)`. -/
def innerGo (ib : List Nat) (ipLimit : Nat) :
    Nat → (Nat → Nat) → Nat → Option ((Nat → Nat) × Nat × Nat)
  | 0, _, _ => none
  | fuel + 1, ht, ip =>
    (u24 ib ip).bind fun s =>
      let h := flzHash s
      let r := ht h
      let ht1 := htSet ht h ip
      let d := if r ≤ ip then ip - r else 4294967296 - (r - ip)
      if ip ≥ ipLimit then some (ht1, ip, r)
      else
        if d ≤ 8191 then
          (u24 ib r).bind fun sr =>
            if s = sr then some (ht1, ip + 1, r)
            else innerGo ib ipLimit fuel ht1 (ip + 1)
        else innerGo ib ipLimit fuel ht1 (ip + 1)

/-- The outer loop of `FlzCompressLen` (`for ip := a + 2; ip < ipLimit;`):
run the inner scan; if it stopped at the boundary, close out with a final
literal run; otherwise back up one position, account the pending literal
run, extend the match with `cmp`, account its cost, store the two hashes
after the match (`setNextHash(setNextHash(ip + l))`) and continue with
`a = ip = ip + l + 2`. -/
def outerGo (ib : List Nat) (ipLimit : Nat) :
    Nat → (Nat → Nat) → Nat → Nat → Nat → Option Nat
  | 0, _, _, _, _ => none
  | fuel + 1, ht, a, ip, n =>
    if ip < ipLimit then
      (innerGo ib ipLimit (ipLimit + 1) ht ip).bind fun w =>
        let ht1 := w.1
        let ip1 := w.2.1
        let r := w.2.2
        if ip1 ≥ ipLimit then some (n + litCost (ib.length - a))
        else
          let ip2 := ip1 - 1
          let n1 := if ip2 > a then n + litCost (ip2 - a) else n
          (cmp ib (r + 3) (ip2 + 3) (ipLimit + 9)).bind fun l =>
            let n2 := n1 + matchCost l
            (u24 ib (ip2 + l)).bind fun s1 =>
              (u24 ib (ip2 + l + 1)).bind fun s2 =>
                let ht2 := htSet ht1 (flzHash s1) (ip2 + l)
                let ht3 := htSet ht2 (flzHash s2) (ip2 + l + 1)
                outerGo ib ipLimit fuel ht3 (ip2 + l + 2) (ip2 + l + 2) n2
    else some (n + litCost (ib.length - a))

/-- `FlzCompressLen(ib)` with every slice read bounds-checked: `none` is an
out-of-bounds read (a Go panic).  The scan boundary is
`ipLimit = len(ib) - 13`, clamped to 0 for short inputs; the scan starts at
`ip = a + 2 = 2` with a zeroed 8192-slot table.  The outer loop advances
`ip` by at least one per iteration, so fuel `ib.length + 1` suffices. -/
def flzCompressLen? (ib : List Nat) : Option Nat :=
  let ipLimit := if ib.length < 13 then 0 else ib.length - 13
  outerGo ib ipLimit (ib.length + 1) (fun _ => 0) 0 2 0

/-- Total version of `FlzCompressLen`: the theorem for claim C7 shows the
default is never taken. -/
def FlzCompressLen (ib : List Nat) : Nat := (flzCompressLen? ib).getD 0

/-- Abstraction of the external zlib engine: `outLen hist p` is the number of
bytes a `Write(p)` followed by `Flush()` appends to the session's output
buffer, given the chunks `hist` already written to that session since its
last reset (zlib header, deflate output and the flush synchronization bytes
included). -/
def OutLen : Type := List (List Nat) → List Nat → Nat

/-- A `*zlib.Writer`: it holds a pointer to the buffer it was created with
(`target`, the index into the estimator's buffer array `b`, fixed by
`zlib.NewWriterLevel(&b.b[i], ...)` and changed only by `Reset`), plus its
compression context, modelled as the chunks written since the last reset. -/
structure ZWriter where
  target : Fin 2
  hist : List (List Nat)
deriving DecidableEq

/-- `zlibBatchEstimator`: two output buffers `b[0]`, `b[1]` (only their
lengths are ever observed, so they are modelled by their lengths) and two
writers `w[0]`, `w[1]`.  The struct fields are the array slots; each writer
independently records which slot it appends to. -/
structure zlibBatchEstimator where
  b0len : Nat
  b1len : Nat
  w0 : ZWriter
  w1 : ZWriter
deriving DecidableEq

/-- `newZlibBatchEstimator()`: empty buffers, `w[i]` writing to `&b[i]`. -/
def newZlibBatchEstimator : zlibBatchEstimator :=
  { b0len := 0, b1len := 0, w0 := ⟨0, []⟩, w1 := ⟨1, []⟩ }

/-- Append `out` bytes to the buffer in slot `i` (what a writer's
`Write`+`Flush` does to the buffer its internal pointer designates). -/
def addToSlot (s : zlibBatchEstimator) (i : Fin 2) (out : Nat) : zlibBatchEstimator :=
  if i = 1 then { s with b1len := s.b1len + out } else { s with b0len := s.b0len + out }

/-- `w.w[1].Write(p); w.w[1].Flush()`: the slot-1 writer appends its output
to the buffer its pointer designates and extends its own context. -/
def zmain (outLen : OutLen) (s : zlibBatchEstimator) (p : List Nat) : zlibBatchEstimator :=
  let out := outLen s.w1.hist p
  let s1 := addToSlot s s.w1.target out
  { s1 with w1 := ⟨s1.w1.target, s1.w1.hist ++ [p]⟩ }

/-- `if w.b[1].Len() > 64*1024 { w.w[0].Write(p); w.w[0].Flush() }`. -/
def zmirror (outLen : OutLen) (s : zlibBatchEstimator) (p : List Nat) : zlibBatchEstimator :=
  if s.b1len > 65536 then
    let out := outLen s.w0.hist p
    let s1 := addToSlot s s.w0.target out
    { s1 with w0 := ⟨s1.w0.target, s1.w0.hist ++ [p]⟩ }
  else s

/-- `if w.b[1].Len() > 128*1024 { ... }`: `w.b[1].Reset()` empties slot 1;
`w.w[1].Reset(&w.b[1])` makes the writer currently in slot 1 a fresh session
pointing at slot 1; then the buffer values and writer pointers are swapped:
slot 1 receives the old slot-0 buffer value and the old slot-0 writer (whose
internal pointer still designates slot 0), slot 0 receives the emptied
buffer and the reset writer (whose internal pointer designates slot 1). -/
def zrotate (s : zlibBatchEstimator) : zlibBatchEstimator :=
  if s.b1len > 131072 then
    { b0len := 0, b1len := s.b0len, w0 := ⟨1, []⟩, w1 := s.w0 }
  else s

/-- `(w *zlibBatchEstimator) write(p) uint32`: record `before := w.b[1].Len()`,
write+flush through `w.w[1]`, record `after := w.b[1].Len()`, mirror into
`w.w[0]` if `b[1]` exceeds 64KB, rotate if `b[1]` exceeds 128KB, and return
`0` when `after - before - 2 < 0`, else `uint32(after - before - 2)`. -/
def zlibBatchEstimator.write (outLen : OutLen) (s : zlibBatchEstimator) (p : List Nat) :
    zlibBatchEstimator × Nat :=
  let before := s.b1len
  let s1 := zmain outLen s p
  let after := s1.b1len
  let s2 := zmirror outLen s1 p
  let s3 := zrotate s2
  (s3, if after < before + 2 then 0 else (after - before - 2) % 4294967296)

/-- A transaction: its type tag (`Tx.Type()`; `types.DepositTxType = 0x7e`)
and the result of `tx.MarshalBinary()` (`none` models a marshaling error). -/
structure Tx where
  typ : Nat
  bin : Option (List Nat)

/-- A block: its number and its transactions in iteration order. -/
structure Block where
  number : Nat
  txs : List Tx

/-- `TxResult`: one estimation record per processed transaction. -/
structure TxResult where
  blockNumber : Nat
  best : Nat
  fastlz : Nat
  zeroes : Nat
  nonZeroes : Nat
deriving DecidableEq

/-- The worker's mutable state: the estimator, `bootstrapCount` and
`bootstrapDone`. -/
structure WState where
  zs : zlibBatchEstimator
  count : Nat
  done : Bool

/-- Initial worker state: `bootstrapCount := 0`, `bootstrapDone := false`. -/
def wInit : WState := { zs := newZlibBatchEstimator, count := 0, done := false }

/-- One transaction of the worker loop (`bootstrapTxs = k`): skip deposits,
skip transactions whose serialization failed, trim the 68-byte signature
suffix when enabled and long enough; then either warm the estimator
(incrementing `bootstrapCount` and completing bootstrap once it reaches the
threshold, emitting nothing), or run both estimators, count zero/non-zero
bytes and emit one `TxResult`. -/
def stepTx (trim : Bool) (k : Nat) (outLen : OutLen) (bn : Nat) (s : WState) (t : Tx) :
    WState × Option TxResult :=
  if t.typ = 126 then (s, none)
  else
    match t.bin with
    | none => (s, none)
    | some b0 =>
      let b := if trim && decide (b0.length ≥ 68) then b0.take (b0.length - 68) else b0
      if !s.done then
        let zs := (zlibBatchEstimator.write outLen s.zs b).1
        let count := s.count + 1
        ({ zs := zs, count := count, done := decide (count ≥ k) }, none)
      else
        let wr := zlibBatchEstimator.write outLen s.zs b
        let fastlz := FlzCompressLen b
        let zeroes := b.countP (fun x => x == 0)
        let nonZeroes := b.countP (fun x => x != 0)
        ({ s with zs := wr.1 },
         some { blockNumber := bn, best := wr.2, fastlz := fastlz,
                zeroes := zeroes, nonZeroes := nonZeroes })

/-- The worker's inner loop over one block's transactions. -/
def processTxs (trim : Bool) (k : Nat) (outLen : OutLen) (bn : Nat) :
    WState → List Tx → WState × List TxResult
  | s, [] => (s, [])
  | s, t :: ts =>
    let st := stepTx trim k outLen bn s t
    let rest := processTxs trim k outLen bn st.1 ts
    (rest.1, st.2.toList ++ rest.2)

/-- The worker loop over the job queue: a `none` job is the nil-block case,
logged and skipped. -/
def processJobs (trim : Bool) (k : Nat) (outLen : OutLen) :
    WState → List (Option Block) → WState × List TxResult
  | s, [] => (s, [])
  | s, none :: js => processJobs trim k outLen s js
  | s, some b :: js =>
    let bt := processTxs trim k outLen b.number s b.txs
    let rest := processJobs trim k outLen bt.1 js
    (rest.1, bt.2 ++ rest.2)

/-- End-to-end worker run from the initial state: the `TxResult`s emitted, in
order, for a given arrival order of jobs. -/
def processBlocks (trim : Bool) (k : Nat) (outLen : OutLen) (jobs : List (Option Block)) :
    List TxResult :=
  (processJobs trim k outLen wInit jobs).2

/-- A transaction is eligible when it is not a deposit and serializes
successfully: exactly the ones that reach the bootstrap/estimate logic. -/
def eligible (t : Tx) : Bool := t.typ != 126 && t.bin.isSome

/-- Eligible transactions in one block. -/
def ecT (txs : List Tx) : Nat := (txs.filter eligible).length

/-- Eligible transactions in a job list (nil jobs contribute none). -/
def ecJ : List (Option Block) → Nat
  | [] => 0
  | none :: js => ecJ js
  | some b :: js => ecT b.txs + ecJ js

/-- Little-endian serialization of a `uint32` (what one
`binary.Write(output, binary.LittleEndian, x)` of a `uint32` emits). -/
def le32 (n : Nat) : List Nat :=
  [n % 256, n / 256 % 256, n / 65536 % 256, n / 16777216 % 256]

/-- Read a `uint32` back from 4 little-endian bytes. -/
def fromLe32 : List Nat → Nat
  | [a, b, c, d] => a + 256 * b + 65536 * c + 16777216 * d
  | _ => 0

/-- The five fields of one record in serialization order: `uint32(BlockNumber)`
(a `uint64` truncated by the cast), `Best`, `Fastlz`, `Zeroes`, `NonZeroes`. -/
def serializeResult (r : TxResult) : List Nat :=
  le32 (r.blockNumber % 4294967296) ++ le32 r.best ++ le32 r.fastlz ++
    le32 r.zeroes ++ le32 r.nonZeroes

/-- The writer goroutine's output stream: for each consumed result, five
consecutive `binary.Write` calls append the five fields; nothing else is
written. -/
def writerRun (results : List TxResult) : List Nat :=
  results.foldl
    (fun acc r =>
      acc ++ le32 (r.blockNumber % 4294967296) ++ le32 r.best ++ le32 r.fastlz ++
        le32 r.zeroes ++ le32 r.nonZeroes)
    []

/-- The local read-only store behind `LocalClient`: hashes are `Nat` with `0`
playing the role of the zero hash `common.Hash{}`.  `headHash` is
`rawdb.ReadHeadBlockHash`, `headerNumber` is `rawdb.ReadHeaderNumber`,
`canonicalHash` is `rawdb.ReadCanonicalHash` (returning the zero hash when
the number is absent), `readBlock` is `rawdb.ReadBlock` (which may itself
return nil). -/
structure LocalStore where
  headHash : Nat
  headerNumber : Nat → Option Nat
  canonicalHash : Nat → Nat
  readBlock : Nat → Nat → Option Block

namespace LocalClient

/-- `LocalClient.BlockByHash`: nil block and nil error when the hash has no
stored header number. -/
def BlockByHash (c : LocalStore) (h : Nat) : Option Block × Option Unit :=
  match c.headerNumber h with
  | none => (none, none)
  | some n => (c.readBlock h n, none)

/-- `LocalClient.BlockByNumber`: negative numbers resolve the head block by
hash; otherwise look up the canonical hash and return a nil block with a nil
error when it is the zero hash.  No path returns a non-nil error. -/
def BlockByNumber (c : LocalStore) (number : Int) : Option Block × Option Unit :=
  if number < 0 then BlockByHash c c.headHash
  else
    let hash := c.canonicalHash number.toNat
    if hash = 0 then (none, none)
    else (c.readBlock hash number.toNat, none)

end LocalClient

/-- The fetcher's retry loop (`for attempt := 0; attempt < maxRetries;`):
`fetch attempt` is the attempt's outcome; break on a nil error, otherwise
back off and retry until the attempts are exhausted.  Returns the final
`(block, err)` pair and the number of attempts performed. -/
def retryLoop (fetch : Nat → Option Block × Option Unit) :
    Nat → Nat → Option Block × Option Unit × Nat
  | 0, attempt => (none, some (), attempt)
  | left + 1, attempt =>
    match fetch attempt with
    | (b, none) => (b, none, attempt + 1)
    | (b, some e) =>
      if left = 0 then (b, some e, attempt + 1)
      else retryLoop fetch left (attempt + 1)

/-- `fetchWithRetry`: the fetcher's `maxRetries = 8` loop started at attempt 0. -/
def fetchWithRetry (fetch : Nat → Option Block × Option Unit) (maxRetries : Nat) :
    Option Block × Option Unit × Nat :=
  retryLoop fetch maxRetries 0

/-- After the retry loop: a remaining error logs the drop and produces no
job (`none`); otherwise the fetched block — nil or not — is pushed as a job
(`some job`). -/
def fetcherHandle (fetch : Nat → Option Block × Option Unit) (maxRetries : Nat) :
    Option (Option Block) :=
  match fetchWithRetry fetch maxRetries with
  | (b, none, _) => some b
  | (_, some _, _) => none

/-! Concrete instantiations used by witnesses and counterexamples. -/

/-- A simple growth oracle: incompressible data plus a fixed flush overhead. -/
def outLenC : OutLen := fun _ p => p.length + 4

/-- A growth oracle whose very first write already exceeds the 128KB
rotation bound. -/
def outLenW : OutLen := fun _ _ => 131073

/-- A growth oracle under which a rotation is reached with the short-window
buffer still small: a session's output for a chunk is 100 bytes per byte of
the session's first-ever chunk, plus the chunk's own length. -/
def outLenW2 : OutLen := fun h p => (h.headD []).length * 100 + p.length

/-- Four writes under `outLenW2` driving `b[1]` from empty past 128KB while
`b[0]` stays at 510 bytes; the fourth write rotates, leaving the slot-1
writer pointing at buffer 0. -/
def zTrace : zlibBatchEstimator :=
  (zlibBatchEstimator.write outLenW2
    (zlibBatchEstimator.write outLenW2
      (zlibBatchEstimator.write outLenW2
        (zlibBatchEstimator.write outLenW2 newZlibBatchEstimator
          (List.replicate 600 1)).1
        (List.replicate 5 1)).1
      (List.replicate 5 2)).1
    (List.replicate 5 3)).1

/-- The 10 synthetic transactions of the end-to-end scenario: all
non-deposit (type 2), with distinct small payloads. -/
def endToEndJobs : List (Option Block) :=
  [some { number := 100, txs := [⟨2, some [1, 0, 2]⟩, ⟨2, some [0, 0, 3, 4]⟩] },
   some { number := 101, txs := [⟨2, some [5]⟩, ⟨2, some [0, 6]⟩] },
   some { number := 102, txs := [⟨2, some [7, 8, 0, 0, 9]⟩, ⟨2, some [10]⟩] },
   some { number := 103, txs := [⟨2, some [0]⟩, ⟨2, some [11, 12]⟩] },
   some { number := 104, txs := [⟨2, some [13, 0, 14]⟩, ⟨2, some [15, 16, 17, 0]⟩] }]

/-! ### Helper lemmas: FastLZ reads, match extension, scan loops -/

theorem byteAt_isSome {ib : List Nat} {i : Nat} (h : i < ib.length) :
    ∃ x, byteAt ib i = some x :=
  ⟨ib.get ⟨i, h⟩, by simp [byteAt, List.get?_eq_get h]⟩

theorem u24_some {ib : List Nat} {i : Nat} (h : i + 2 < ib.length) :
    ∃ v, u24 ib i = some v := by
  obtain ⟨a, ha⟩ := byteAt_isSome (show i < ib.length by omega)
  obtain ⟨b, hb⟩ := byteAt_isSome (show i + 1 < ib.length by omega)
  obtain ⟨c, hc⟩ := byteAt_isSome (show i + 2 < ib.length by omega)
  exact ⟨a + 256 * b + 65536 * c, by simp [u24, ha, hb, hc]⟩

theorem cmpGo_spec {ib : List Nat} {p q e : Nat} :
    ∀ fuel l, l ≤ e → e < l + fuel →
      (∀ j, j < e → p + j < ib.length ∧ q + j < ib.length) →
      ∃ m, cmpGo ib p q e fuel l = some m ∧ m ≤ e ∧ l ≤ m ∧ (l < e → l < m) := by
  intro fuel
  induction fuel with
  | zero => intro l h1 h2 _; omega
  | succ f ih =>
    intro l h1 h2 hb
    by_cases hl : l < e
    · obtain ⟨x, hx⟩ := byteAt_isSome (hb l hl).1
      obtain ⟨y, hy⟩ := byteAt_isSome (hb l hl).2
      by_cases hxy : x = y
      · obtain ⟨m, hm, h3, h4, h5⟩ := ih (l + 1) (by omega) (by omega) hb
        refine ⟨m, ?_, h3, by omega, fun _ => by omega⟩
        simp only [cmpGo, if_pos hl, hx, hy, Option.some_bind]
        simp [hxy, hm]
      · refine ⟨l + 1, ?_, by omega, by omega, fun _ => by omega⟩
        simp only [cmpGo, if_pos hl, hx, hy, Option.some_bind]
        simp [hxy]
    · refine ⟨l, ?_, by omega, le_refl l, fun h => absurd h hl⟩
      simp [cmpGo, hl]

theorem innerGo_spec {ib : List Nat} {ipLimit : Nat} (hL : ipLimit + 13 = ib.length) :
    ∀ fuel ht ip, ip ≤ ipLimit → (∀ h, ht h ≤ ip) → ipLimit - ip < fuel →
      ∃ ht1 ip1 r, innerGo ib ipLimit fuel ht ip = some (ht1, ip1, r) ∧
        ip ≤ ip1 ∧ ip1 ≤ ipLimit ∧ (∀ h, ht1 h ≤ ip1) ∧ r ≤ ip1 ∧
        (ip1 < ipLimit → ip < ip1 ∧ r + 1 ≤ ip1 ∧ ∀ h, ht1 h + 1 ≤ ip1) := by
  intro fuel
  induction fuel with
  | zero => intro ht ip _ _ h; omega
  | succ f ih =>
    intro ht ip hip hht hfuel
    obtain ⟨s, hs⟩ := u24_some (show ip + 2 < ib.length by omega)
    have hr : ht (flzHash s) ≤ ip := hht _
    have hdEq :
        (if ht (flzHash s) ≤ ip then ip - ht (flzHash s)
         else 4294967296 - (ht (flzHash s) - ip)) = ip - ht (flzHash s) := if_pos hr
    have hunf :
        innerGo ib ipLimit (f + 1) ht ip =
          (if ip ≥ ipLimit then some (htSet ht (flzHash s) ip, ip, ht (flzHash s))
           else
             if ip - ht (flzHash s) ≤ 8191 then
               (u24 ib (ht (flzHash s))).bind fun sr =>
                 if s = sr then some (htSet ht (flzHash s) ip, ip + 1, ht (flzHash s))
                 else innerGo ib ipLimit f (htSet ht (flzHash s) ip) (ip + 1)
             else innerGo ib ipLimit f (htSet ht (flzHash s) ip) (ip + 1)) := by
      simp only [innerGo, hs, Option.some_bind, hdEq]
    by_cases hlim : ip ≥ ipLimit
    · refine ⟨htSet ht (flzHash s) ip, ip, ht (flzHash s), ?_, le_refl _, hip, ?_, hr, ?_⟩
      · rw [hunf, if_pos hlim]
      · intro h; unfold htSet; split <;> [exact le_refl _; exact hht _]
      · intro h; omega
    · have hlt : ip < ipLimit := by omega
      rw [hunf, if_neg hlim]
      obtain ⟨sr, hsr⟩ := u24_some (show ht (flzHash s) + 2 < ib.length by omega)
      by_cases hd : ip - ht (flzHash s) ≤ 8191
      · rw [if_pos hd, hsr, Option.some_bind]
        by_cases hssr : s = sr
        · rw [if_pos hssr]
          refine ⟨htSet ht (flzHash s) ip, ip + 1, ht (flzHash s), rfl, by omega, by omega,
            ?_, by omega, ?_⟩
          · intro h; unfold htSet; split <;> [omega; exact le_trans (hht _) (by omega)]
          · intro _
            refine ⟨by omega, by omega, fun h => ?_⟩
            unfold htSet; split <;> [omega; exact Nat.add_le_add_right (hht _) 1]
        · rw [if_neg hssr]
          obtain ⟨ht1, ip1, r, heq, h1, h2, h3, h4, h5⟩ :=
            ih (htSet ht (flzHash s) ip) (ip + 1) (by omega)
              (fun h => by unfold htSet; split <;> [omega; exact le_trans (hht _) (by omega)])
              (by omega)
          exact ⟨ht1, ip1, r, heq, by omega, h2, h3, h4,
            fun h => ⟨by omega, (h5 h).2.1, (h5 h).2.2⟩⟩
      · rw [if_neg hd]
        obtain ⟨ht1, ip1, r, heq, h1, h2, h3, h4, h5⟩ :=
          ih (htSet ht (flzHash s) ip) (ip + 1) (by omega)
            (fun h => by unfold htSet; split <;> [omega; exact le_trans (hht _) (by omega)])
            (by omega)
        exact ⟨ht1, ip1, r, heq, by omega, h2, h3, h4,
          fun h => ⟨by omega, (h5 h).2.1, (h5 h).2.2⟩⟩

theorem outerGo_isSome {ib : List Nat} {ipLimit : Nat} (hL : ipLimit + 13 = ib.length) :
    ∀ fuel ht a ip n, (∀ h, ht h ≤ ip) → ipLimit - ip < fuel →
      (outerGo ib ipLimit fuel ht a ip n).isSome := by
  intro fuel
  induction fuel with
  | zero => intro ht a ip n _ h; omega
  | succ f ih =>
    intro ht a ip n hht hfuel
    by_cases hip : ip < ipLimit
    · obtain ⟨ht1, ip1, r, heq, h1, h2, h3, h4, h5⟩ :=
        innerGo_spec hL (ipLimit + 1) ht ip (by omega) hht (by omega)
      simp only [outerGo, if_pos hip, heq, Option.some_bind]
      by_cases hb : ip1 ≥ ipLimit
      · simp [hb]
      · have hlt1 : ip1 < ipLimit := by omega
        obtain ⟨hip1, hr1, hht1⟩ := h5 hlt1
        obtain ⟨m, hm, hme, hm0, hmpos⟩ :=
          @cmpGo_spec ib (r + 3) (ip1 - 1 + 3) (ipLimit + 9 - (ip1 - 1 + 3))
            (ipLimit + 9 - (ip1 - 1 + 3) + 1) 0 (by omega) (by omega)
            (fun j hj => ⟨by omega, by omega⟩)
        have hmge : 1 ≤ m := hmpos (by omega)
        obtain ⟨s1, hs1⟩ := u24_some (show ip1 - 1 + m + 2 < ib.length by omega)
        obtain ⟨s2, hs2⟩ := u24_some (show ip1 - 1 + m + 1 + 2 < ib.length by omega)
        rw [if_neg hb]
        simp only [cmp, hm, Option.some_bind, hs1, hs2]
        apply ih
        · intro h
          unfold htSet
          split
          · omega
          · split
            · omega
            · have := hht1 h; omega
        · omega
    · simp [outerGo, hip]

/-- Claim C7: `FlzCompressLen` never reads past the input's end — every
slice access in the embedding is bounds-checked, the out-of-bounds branch
(`none`) is unreachable, and the computation always yields a value, for
every input byte sequence. -/
theorem flz_no_out_of_bounds_read (ib : List Nat) : ∃ n, flzCompressLen? ib = some n := by
  by_cases h : ib.length < 13
  · refine ⟨litCost ib.length, ?_⟩
    simp [flzCompressLen?, outerGo, h]
  · have hL : (ib.length - 13) + 13 = ib.length := by omega
    have := outerGo_isSome hL (ib.length + 1) (fun _ => 0) 0 2 0 (fun _ => by simp) (by omega)
    rw [Option.isSome_iff_exists] at this
    obtain ⟨n, hn⟩ := this
    exact ⟨n, by simpa [flzCompressLen?, h] using hn⟩

/-- Claim C5: for inputs of length 0 through 12 the scan boundary collapses
to 0, no match search runs, and the result is the exact all-literal cost
`length + ceil(length / 32)`. -/
theorem flz_short_input (ib : List Nat) (h : ib.length ≤ 12) :
    flzCompressLen? ib = some (ib.length + (ib.length + 31) / 32) := by
  have h13 : ib.length < 13 := by omega
  simp only [flzCompressLen?, if_pos h13, outerGo, if_neg (show ¬ 2 < 0 by omega)]
  set n := ib.length with hn
  interval_cases n <;> decide

/-- Witness for C5 at a concrete input: 5 literal bytes cost 6 bytes. -/
theorem flz_short_input_witness :
    ([1, 2, 3, 4, 5] : List Nat).length ≤ 12 ∧
      flzCompressLen? [1, 2, 3, 4, 5] = some 6 :=
  ⟨by decide, by simpa using flz_short_input [1, 2, 3, 4, 5] (by decide)⟩

/-! ### The 1000-zero-byte reference computation -/

theorem byteAt_replicate_zero {n i : Nat} (h : i < n) :
    byteAt (List.replicate n (0 : Nat)) i = some 0 := by
  simp [byteAt, List.get?_eq_getElem?, List.getElem?_replicate, h]

theorem u24_replicate_zero {n i : Nat} (h : i + 2 < n) :
    u24 (List.replicate n (0 : Nat)) i = some 0 := by
  rw [u24, byteAt_replicate_zero (show i < n by omega),
    byteAt_replicate_zero (show i + 1 < n by omega),
    byteAt_replicate_zero (show i + 2 < n by omega)]
  rfl

/-- On an all-zero input the greedy extension never mismatches, so it runs to
its exclusive end `e`. -/
theorem cmpGo_replicate_zero {n p q e : Nat} (hq : q + e ≤ n) (hp : p + e ≤ n) :
    ∀ fuel l, l ≤ e → e < l + fuel →
      cmpGo (List.replicate n 0) p q e fuel l = some e := by
  intro fuel
  induction fuel with
  | zero => intro l h1 h2; omega
  | succ f ih =>
    intro l h1 h2
    by_cases hl : l < e
    · rw [cmpGo, if_pos hl, byteAt_replicate_zero (show p + l < n by omega),
        byteAt_replicate_zero (show q + l < n by omega)]
      simp only [Option.some_bind]
      rw [if_neg (by simp)]
      exact ih (l + 1) (by omega) (by omega)
    · have he : l = e := by omega
      rw [cmpGo, if_neg hl, he]

/-- For 1000 zero bytes the scan boundary is 987; the first window at
position 2 immediately matches the table's initial position 0. -/
theorem innerGo_thousand_zeros :
    innerGo (List.replicate 1000 0) 987 (987 + 1) (fun _ => 0) 2 =
      some (htSet (fun _ => 0) 0 2, 3, 0) := by
  rw [innerGo, u24_replicate_zero (show 2 + 2 < 1000 by omega), Option.some_bind]
  norm_num [flzHash]
  rw [u24_replicate_zero (show 0 + 2 < 1000 by omega)]
  norm_num

/-- The match at position 2 extends over the whole remaining window:
`cmp(3, 5, 996)` returns 991. -/
theorem cmp_thousand_zeros : cmp (List.replicate 1000 0) 3 5 996 = some 991 := by
  rw [cmp]
  norm_num
  exact cmpGo_replicate_zero (by omega) (by omega) 992 0 (by omega) (by omega)

/-- The full scan of 1000 zero bytes: a 2-byte literal run (3 bytes), one
match of stored length 991 (12 bytes), a final 5-byte literal run (6 bytes). -/
theorem outerGo_thousand_zeros :
    outerGo (List.replicate 1000 0) 987 (1000 + 1) (fun _ => 0) 0 2 0 = some 21 := by
  rw [outerGo, if_pos (show (2 : Nat) < 987 by omega), innerGo_thousand_zeros,
    Option.some_bind]
  norm_num
  rw [cmp_thousand_zeros]
  simp only [Option.some_bind]
  norm_num
  rw [u24_replicate_zero (show 993 + 2 < 1000 by omega),
    u24_replicate_zero (show 994 + 2 < 1000 by omega)]
  simp only [Option.some_bind]
  rw [show (1000 : Nat) = 999 + 1 from rfl, outerGo,
    if_neg (show ¬ (995 : Nat) < 987 by omega)]
  norm_num [litCost, matchCost]

/-- Claim C6: on 1000 zero bytes `FlzCompressLen` returns 21 — the
hand-computed FastLZ level-1 cost (literal run of 2 costs 3, the long match
costs 12, the trailing literal run of 5 costs 6) — far below 1000. -/
theorem flz_thousand_zeros :
    flzCompressLen? (List.replicate 1000 0) = some 21 ∧ 21 < 1000 := by
  refine ⟨?_, by omega⟩
  have hstart : flzCompressLen? (List.replicate 1000 0) =
      outerGo (List.replicate 1000 0) 987 1001 (fun _ => 0) 0 2 0 := by
    rw [flzCompressLen?]
    norm_num
  rw [hstart, show (1001 : Nat) = 1000 + 1 from rfl, outerGo_thousand_zeros]

/-! ### Zlib batch estimator: buffer bookkeeping -/

theorem zmain_b1len (outLen : OutLen) (s : zlibBatchEstimator) (p : List Nat) :
    (zmain outLen s p).b1len =
      if s.w1.target = 1 then s.b1len + outLen s.w1.hist p else s.b1len := by
  by_cases h : s.w1.target = 1 <;> simp [zmain, addToSlot, h]

theorem zmain_b0len (outLen : OutLen) (s : zlibBatchEstimator) (p : List Nat) :
    (zmain outLen s p).b0len =
      if s.w1.target = 1 then s.b0len else s.b0len + outLen s.w1.hist p := by
  by_cases h : s.w1.target = 1 <;> simp [zmain, addToSlot, h]

theorem zmain_w0 (outLen : OutLen) (s : zlibBatchEstimator) (p : List Nat) :
    (zmain outLen s p).w0 = s.w0 := by
  by_cases h : s.w1.target = 1 <;> simp [zmain, addToSlot, h]

theorem zmain_w1_target (outLen : OutLen) (s : zlibBatchEstimator) (p : List Nat) :
    (zmain outLen s p).w1.target = s.w1.target := by
  by_cases h : s.w1.target = 1 <;> simp [zmain, addToSlot, h]

theorem zmain_w1_hist (outLen : OutLen) (s : zlibBatchEstimator) (p : List Nat) :
    (zmain outLen s p).w1.hist = s.w1.hist ++ [p] := by
  by_cases h : s.w1.target = 1 <;> simp [zmain, addToSlot, h]

theorem zmirror_w0_target (outLen : OutLen) (s : zlibBatchEstimator) (p : List Nat) :
    (zmirror outLen s p).w0.target = s.w0.target := by
  rw [zmirror]
  by_cases h : s.b1len > 65536
  · by_cases h0 : s.w0.target = 1 <;> simp [h, addToSlot, h0]
  · simp [h]

theorem zmirror_of_le (outLen : OutLen) (s : zlibBatchEstimator) (p : List Nat)
    (h : s.b1len ≤ 65536) : zmirror outLen s p = s := by
  rw [zmirror, if_neg (by omega)]

theorem zrotate_of_le (s : zlibBatchEstimator) (h : s.b1len ≤ 131072) :
    zrotate s = s := by
  rw [zrotate, if_neg (by omega)]

/-- The returned delta, unfolded: `write` compares the slot-1 buffer length
before the main write with its length right after it. -/
theorem zlib_write_snd (outLen : OutLen) (s : zlibBatchEstimator) (p : List Nat) :
    (zlibBatchEstimator.write outLen s p).2 =
      if (zmain outLen s p).b1len < s.b1len + 2 then 0
      else ((zmain outLen s p).b1len - s.b1len - 2) % 4294967296 := rfl

/-- The post-state, unfolded. -/
theorem zlib_write_fst (outLen : OutLen) (s : zlibBatchEstimator) (p : List Nat) :
    (zlibBatchEstimator.write outLen s p).1 =
      zrotate (zmirror outLen (zmain outLen s p) p) := rfl

/-- Claim C4: for every write in every estimator state, the returned delta
equals `max 0 (post_len − pre_len − 2)`, where `pre_len`/`post_len` are the
slot-1 buffer lengths before and right after the write+flush; in particular
it is never negative.  (The hypothesis keeps the `uint32` cast of the Go
return value exact: a single flushed output of ≥ 2^32 bytes would wrap.) -/
theorem zlib_write_delta (outLen : OutLen) (s : zlibBatchEstimator) (p : List Nat)
    (h : (zmain outLen s p).b1len < s.b1len + 4294967298) :
    (zlibBatchEstimator.write outLen s p).2 =
      Int.toNat (max 0 (((zmain outLen s p).b1len : Int) - (s.b1len : Int) - 2)) ∧
    0 ≤ ((zlibBatchEstimator.write outLen s p).2 : Int) := by
  refine ⟨?_, Int.ofNat_nonneg _⟩
  rw [zlib_write_snd]
  split
  · omega
  · rw [Nat.mod_eq_of_lt (by omega)]
    omega

/-- Witness for C4: from a fresh estimator, a 3-byte write whose modelled
output is 7 bytes returns 7 − 2 = 5. -/
theorem zlib_write_delta_witness :
    (zlibBatchEstimator.write outLenC newZlibBatchEstimator [1, 2, 3]).2 =
      Int.toNat (max 0 (((zmain outLenC newZlibBatchEstimator [1, 2, 3]).b1len : Int) -
        ((newZlibBatchEstimator).b1len : Int) - 2)) ∧
    (zlibBatchEstimator.write outLenC newZlibBatchEstimator [1, 2, 3]).2 = 5 :=
  ⟨(zlib_write_delta outLenC newZlibBatchEstimator [1, 2, 3] (by decide)).1, by decide⟩

/-- Claim C1 (the rotation defect): from any correctly-wired state, a write
that pushes `b[1]` past 128KB does rotate the buffer values — slot 1 receives
the stale short-window buffer, slot 0 the emptied one — but the writer left
in slot 1 still appends to buffer 0 and the reset writer left in slot 0
appends to buffer 1.  Consequently every subsequent main write leaves the
measured buffer `b[1]` untouched (its output lands in `b[0]`) and the
returned delta is 0, contradicting the claim that subsequent writes
accumulate into and are measured against the buffer holding the stale
short-window history. -/
theorem zlib_rotation_crosswires (outLen : OutLen) (s : zlibBatchEstimator)
    (p q : List Nat) (h0 : s.w0.target = 0) (h1 : s.w1.target = 1)
    (hrot : (zmirror outLen (zmain outLen s p) p).b1len > 131072) :
    (zlibBatchEstimator.write outLen s p).1.w1.target = 0 ∧
    (zlibBatchEstimator.write outLen s p).1.w0.target = 1 ∧
    (zlibBatchEstimator.write outLen (zlibBatchEstimator.write outLen s p).1 q).2 = 0 ∧
    (zmain outLen (zlibBatchEstimator.write outLen s p).1 q).b1len =
      (zlibBatchEstimator.write outLen s p).1.b1len ∧
    (zmain outLen (zlibBatchEstimator.write outLen s p).1 q).b0len =
      (zlibBatchEstimator.write outLen s p).1.b0len +
        outLen (zlibBatchEstimator.write outLen s p).1.w1.hist q := by
  have hfst : (zlibBatchEstimator.write outLen s p).1 =
      { b0len := 0, b1len := (zmirror outLen (zmain outLen s p) p).b0len,
        w0 := ⟨1, []⟩, w1 := (zmirror outLen (zmain outLen s p) p).w0 } := by
    rw [zlib_write_fst, zrotate, if_pos hrot]
  have hw1t : (zmirror outLen (zmain outLen s p) p).w0.target = 0 := by
    rw [zmirror_w0_target, zmain_w0, h0]
  have ht1 : (zlibBatchEstimator.write outLen s p).1.w1.target = 0 := by
    rw [hfst]; exact hw1t
  have hne : ¬ (zlibBatchEstimator.write outLen s p).1.w1.target = 1 := by
    rw [ht1]; decide
  have hb1q : ∀ q' : List Nat,
      (zmain outLen (zlibBatchEstimator.write outLen s p).1 q').b1len =
        (zlibBatchEstimator.write outLen s p).1.b1len := by
    intro q'; rw [zmain_b1len, if_neg hne]
  refine ⟨ht1, by rw [hfst], ?_, hb1q q, ?_⟩
  · rw [zlib_write_snd, hb1q q, if_pos (by omega)]
  · rw [zmain_b0len, if_neg hne]

/-- Witness for C1: under a growth oracle returning 131073 bytes per flush,
the very first write rotates; the subsequent write of `[5]` returns 0 and
appends its output to buffer 0 while buffer 1 is the measured one. -/
theorem zlib_rotation_crosswires_witness :
    (zlibBatchEstimator.write outLenW newZlibBatchEstimator [0]).1.w1.target = 0 ∧
    (zlibBatchEstimator.write outLenW newZlibBatchEstimator [0]).1.w0.target = 1 ∧
    (zlibBatchEstimator.write outLenW
      (zlibBatchEstimator.write outLenW newZlibBatchEstimator [0]).1 [5]).2 = 0 ∧
    (zmain outLenW (zlibBatchEstimator.write outLenW newZlibBatchEstimator [0]).1 [5]).b1len =
      (zlibBatchEstimator.write outLenW newZlibBatchEstimator [0]).1.b1len ∧
    (zmain outLenW (zlibBatchEstimator.write outLenW newZlibBatchEstimator [0]).1 [5]).b0len =
      (zlibBatchEstimator.write outLenW newZlibBatchEstimator [0]).1.b0len +
        outLenW (zlibBatchEstimator.write outLenW newZlibBatchEstimator [0]).1.w1.hist [5] :=
  zlib_rotation_crosswires outLenW newZlibBatchEstimator [0] [5]
    (by decide) (by decide) (by decide)

/-- Claim C8 (defeated by the rotation defect): in a cross-wired state — as
every rotation produces, and reachable, e.g., as `zTrace` — with `b[1]` at
most 64KB, writing the same chunk twice (no mirror write and no rotation
occurs in between, as the unchanged post-state shows) returns delta 0 both
times, which is not strictly decreasing. -/
theorem zlib_crosswired_identical_writes (outLen : OutLen) (s : zlibBatchEstimator)
    (c : List Nat) (hw : s.w1.target = 0) (hlen : s.b1len ≤ 65536) :
    (zlibBatchEstimator.write outLen s c).1 = zmain outLen s c ∧
    (zlibBatchEstimator.write outLen s c).2 = 0 ∧
    (zlibBatchEstimator.write outLen (zlibBatchEstimator.write outLen s c).1 c).2 = 0 ∧
    ¬ ((zlibBatchEstimator.write outLen (zlibBatchEstimator.write outLen s c).1 c).2 <
        (zlibBatchEstimator.write outLen s c).2) := by
  have hb1 : (zmain outLen s c).b1len = s.b1len := by
    rw [zmain_b1len, if_neg (by rw [hw]; decide)]
  have hfst : (zlibBatchEstimator.write outLen s c).1 = zmain outLen s c := by
    rw [zlib_write_fst, zmirror_of_le _ _ _ (by omega), zrotate_of_le _ (by omega)]
  have hr1 : (zlibBatchEstimator.write outLen s c).2 = 0 := by
    rw [zlib_write_snd, hb1, if_pos (by omega)]
  have hb1' : (zmain outLen (zmain outLen s c) c).b1len = (zmain outLen s c).b1len := by
    rw [zmain_b1len, if_neg (by rw [zmain_w1_target, hw]; decide)]
  have hr2 : (zlibBatchEstimator.write outLen (zmain outLen s c) c).2 = 0 := by
    rw [zlib_write_snd, hb1', if_pos (by omega)]
  refine ⟨hfst, hr1, ?_, ?_⟩
  · rw [hfst, hr2]
  · rw [hfst, hr2, hr1]; omega

set_option maxRecDepth 100000 in
/-- Witness for C8: `zTrace` is reached by four writes, the fourth of which
rotates, leaving `b[1]` at 510 bytes and the slot-1 writer pointing at
buffer 0; writing `[9]` twice then yields deltas 0 and 0. -/
theorem zlib_crosswired_identical_writes_witness :
    (zlibBatchEstimator.write outLenW2 zTrace [9]).1 = zmain outLenW2 zTrace [9] ∧
    (zlibBatchEstimator.write outLenW2 zTrace [9]).2 = 0 ∧
    (zlibBatchEstimator.write outLenW2
      (zlibBatchEstimator.write outLenW2 zTrace [9]).1 [9]).2 = 0 ∧
    ¬ ((zlibBatchEstimator.write outLenW2
        (zlibBatchEstimator.write outLenW2 zTrace [9]).1 [9]).2 <
        (zlibBatchEstimator.write outLenW2 zTrace [9]).2) :=
  zlib_crosswired_identical_writes outLenW2 zTrace [9] (by decide) (by decide)

/-! ### Worker loop: bootstrap accounting -/

theorem ecT_cons_eligible {t : Tx} (ts : List Tx) (h : eligible t = true) :
    ecT (t :: ts) = ecT ts + 1 := by
  simp [ecT, List.filter_cons, h]

theorem ecT_cons_ineligible {t : Tx} (ts : List Tx) (h : eligible t = false) :
    ecT (t :: ts) = ecT ts := by
  simp [ecT, List.filter_cons, h]

theorem stepTx_ineligible (trim : Bool) (k : Nat) (outLen : OutLen) (bn : Nat)
    (s : WState) (t : Tx) (h : eligible t = false) :
    stepTx trim k outLen bn s t = (s, none) := by
  by_cases h1 : t.typ = 126
  · simp [stepTx, h1]
  · have hb : t.bin = none := by
      cases hb : t.bin <;> simp [eligible, h1, hb] at h ⊢
    simp [stepTx, h1, hb]

theorem stepTx_eligible_done (trim : Bool) (k : Nat) (outLen : OutLen) (bn : Nat)
    (s : WState) (t : Tx) (h : eligible t = true) (hd : s.done = true) :
    (stepTx trim k outLen bn s t).1.count = s.count ∧
    (stepTx trim k outLen bn s t).1.done = true ∧
    (stepTx trim k outLen bn s t).2.toList.length = 1 := by
  have h1 : ¬ t.typ = 126 := by
    simp [eligible] at h; exact fun hc => by simp [hc] at h
  obtain ⟨b, hb⟩ : ∃ b, t.bin = some b := by
    simp [eligible] at h
    exact Option.isSome_iff_exists.mp h.2
  simp [stepTx, h1, hb, hd]

theorem stepTx_eligible_not_done (trim : Bool) (k : Nat) (outLen : OutLen) (bn : Nat)
    (s : WState) (t : Tx) (h : eligible t = true) (hd : s.done = false) :
    (stepTx trim k outLen bn s t).1.count = s.count + 1 ∧
    ((stepTx trim k outLen bn s t).1.done = decide (s.count + 1 ≥ k)) ∧
    (stepTx trim k outLen bn s t).2 = none := by
  have h1 : ¬ t.typ = 126 := by
    simp [eligible] at h; exact fun hc => by simp [hc] at h
  obtain ⟨b, hb⟩ : ∃ b, t.bin = some b := by
    simp [eligible] at h
    exact Option.isSome_iff_exists.mp h.2
  simp [stepTx, h1, hb, hd]

/-- Once bootstrap is complete it stays complete, the counter freezes, and
every eligible transaction emits exactly one record. -/
theorem processTxs_done (trim : Bool) (k : Nat) (outLen : OutLen) (bn : Nat) :
    ∀ (txs : List Tx) (s : WState), s.done = true →
      (processTxs trim k outLen bn s txs).1.done = true ∧
      (processTxs trim k outLen bn s txs).1.count = s.count ∧
      (processTxs trim k outLen bn s txs).2.length = ecT txs := by
  intro txs
  induction txs with
  | nil => intro s hd; simp [processTxs, ecT, hd]
  | cons t ts ih =>
    intro s hd
    by_cases he : eligible t
    · obtain ⟨hc, hdn, hlen⟩ := stepTx_eligible_done trim k outLen bn s t he hd
      obtain ⟨ih1, ih2, ih3⟩ := ih (stepTx trim k outLen bn s t).1 hdn
      simp only [processTxs]
      refine ⟨ih1, by rw [ih2, hc], ?_⟩
      rw [List.length_append, hlen, ih3, ecT_cons_eligible ts he]
      omega
    · rw [Bool.not_eq_true] at he
      obtain ⟨ih1, ih2, ih3⟩ := ih s hd
      simp only [processTxs, stepTx_ineligible trim k outLen bn s t he,
        ecT_cons_ineligible ts he, Option.toList_none, List.nil_append]
      exact ⟨ih1, ih2, ih3⟩

/-- During bootstrap with threshold `k` and counter `c`, exactly
`min E (max 1 (k − c))` of the `E` eligible transactions are consumed by the
warm-up (at least one even when `c ≥ k`, since the done flag is only set
after a bootstrap step), and the rest emit one record each. -/
theorem processTxs_not_done (trim : Bool) (k : Nat) (outLen : OutLen) (bn : Nat) :
    ∀ (txs : List Tx) (s : WState), s.done = false →
      ((processTxs trim k outLen bn s txs).1.done =
        decide (ecT txs ≥ max 1 (k - s.count))) ∧
      (processTxs trim k outLen bn s txs).1.count =
        s.count + min (ecT txs) (max 1 (k - s.count)) ∧
      (processTxs trim k outLen bn s txs).2.length =
        ecT txs - max 1 (k - s.count) := by
  intro txs
  induction txs with
  | nil =>
    intro s hd
    simp only [processTxs, ecT, List.filter_nil, List.length_nil]
    refine ⟨?_, by omega, by omega⟩
    rw [hd]
    have : ¬ (0 ≥ max 1 (k - s.count)) := by omega
    simp [this]
  | cons t ts ih =>
    intro s hd
    by_cases he : eligible t
    · obtain ⟨hc, hdn, hnone⟩ := stepTx_eligible_not_done trim k outLen bn s t he hd
      simp only [processTxs, hnone, Option.toList_none, List.nil_append,
        ecT_cons_eligible ts he]
      by_cases hk : s.count + 1 ≥ k
      · have hdec : (stepTx trim k outLen bn s t).1.done = true := by
          rw [hdn]; simp [hk]
        obtain ⟨ih1, ih2, ih3⟩ := processTxs_done trim k outLen bn ts
          (stepTx trim k outLen bn s t).1 hdec
        refine ⟨?_, ?_, ?_⟩
        · rw [ih1]; symm; simp only [decide_eq_true_eq]; omega
        · rw [ih2, hc]; omega
        · rw [ih3]; omega
      · have hdec : (stepTx trim k outLen bn s t).1.done = false := by
          rw [hdn]; simp [hk]
        obtain ⟨ih1, ih2, ih3⟩ := ih (stepTx trim k outLen bn s t).1 hdec
        rw [hc] at ih1 ih2 ih3
        refine ⟨?_, ?_, ?_⟩
        · rw [ih1, decide_eq_decide]; omega
        · rw [ih2]; omega
        · rw [ih3]; omega
    · rw [Bool.not_eq_true] at he
      obtain ⟨ih1, ih2, ih3⟩ := ih s hd
      simp only [processTxs, stepTx_ineligible trim k outLen bn s t he,
        ecT_cons_ineligible ts he, Option.toList_none, List.nil_append]
      exact ⟨ih1, ih2, ih3⟩

theorem processJobs_done (trim : Bool) (k : Nat) (outLen : OutLen) :
    ∀ (jobs : List (Option Block)) (s : WState), s.done = true →
      (processJobs trim k outLen s jobs).1.done = true ∧
      (processJobs trim k outLen s jobs).1.count = s.count ∧
      (processJobs trim k outLen s jobs).2.length = ecJ jobs := by
  intro jobs
  induction jobs with
  | nil => intro s hd; simp [processJobs, ecJ, hd]
  | cons j js ih =>
    intro s hd
    cases j with
    | none => simpa [processJobs, ecJ] using ih s hd
    | some b =>
      obtain ⟨h1, h2, h3⟩ := processTxs_done trim k outLen b.number b.txs s hd
      obtain ⟨ih1, ih2, ih3⟩ := ih (processTxs trim k outLen b.number s b.txs).1 h1
      simp only [processJobs, ecJ]
      refine ⟨ih1, by rw [ih2, h2], ?_⟩
      simp [ih3, h3]

/-- The block-level version of the bootstrap accounting, by composing the
per-block formulas. -/
theorem processJobs_not_done (trim : Bool) (k : Nat) (outLen : OutLen) :
    ∀ (jobs : List (Option Block)) (s : WState), s.done = false →
      ((processJobs trim k outLen s jobs).1.done =
        decide (ecJ jobs ≥ max 1 (k - s.count))) ∧
      (processJobs trim k outLen s jobs).1.count =
        s.count + min (ecJ jobs) (max 1 (k - s.count)) ∧
      (processJobs trim k outLen s jobs).2.length =
        ecJ jobs - max 1 (k - s.count) := by
  intro jobs
  induction jobs with
  | nil =>
    intro s hd
    simp only [processJobs, ecJ, List.length_nil]
    refine ⟨?_, by omega, by omega⟩
    rw [hd]
    have : ¬ (0 ≥ max 1 (k - s.count)) := by omega
    simp [this]
  | cons j js ih =>
    intro s hd
    cases j with
    | none => simpa [processJobs, ecJ] using ih s hd
    | some b =>
      obtain ⟨h1, h2, h3⟩ := processTxs_not_done trim k outLen b.number b.txs s hd
      by_cases hE : ecT b.txs ≥ max 1 (k - s.count)
      · have h1' : (processTxs trim k outLen b.number s b.txs).1.done = true := by
          rw [h1]; simp [hE]
        obtain ⟨ih1, ih2, ih3⟩ := processJobs_done trim k outLen js
          (processTxs trim k outLen b.number s b.txs).1 h1'
        simp only [processJobs, ecJ]
        refine ⟨?_, ?_, ?_⟩
        · rw [ih1]; symm; simp only [decide_eq_true_eq]; omega
        · rw [ih2, h2]; omega
        · rw [List.length_append, ih3, h3]; omega
      · have h1' : (processTxs trim k outLen b.number s b.txs).1.done = false := by
          rw [h1]; simp [hE]
        obtain ⟨ih1, ih2, ih3⟩ := ih (processTxs trim k outLen b.number s b.txs).1 h1'
        rw [h2] at ih1 ih2 ih3
        simp only [processJobs, ecJ]
        refine ⟨?_, ?_, ?_⟩
        · rw [ih1, decide_eq_decide]; omega
        · rw [ih2]; omega
        · rw [List.length_append, ih3, h3]; omega

/-- From the initial state (counter 0, bootstrap not done) the run emits one
record per eligible transaction beyond the first `max 1 k` of them. -/
theorem processBlocks_length (trim : Bool) (k : Nat) (outLen : OutLen)
    (jobs : List (Option Block)) :
    (processBlocks trim k outLen jobs).length = ecJ jobs - max 1 k := by
  have := processJobs_not_done trim k outLen jobs wInit rfl
  simpa [processBlocks, wInit] using this.2.2

/-- Claim C3, amended to thresholds ≥ 1 (a threshold of 0 behaves like 1:
the first eligible transaction is still consumed by bootstrap because the
done flag starts false and is only raised after a warm-up write): for every
eligible stream, the first `k` eligible transactions emit nothing and the
`k+1`-st emits exactly one record. -/
theorem bootstrap_first_k_silent (trim : Bool) (k : Nat) (outLen : OutLen)
    (jobs1 jobs2 : List (Option Block)) (hk : 1 ≤ k)
    (h1 : ecJ jobs1 ≤ k) (h2 : ecJ jobs2 = k + 1) :
    processBlocks trim k outLen jobs1 = [] ∧
    (processBlocks trim k outLen jobs2).length = 1 := by
  constructor
  · have hl := processBlocks_length trim k outLen jobs1
    have : (processBlocks trim k outLen jobs1).length = 0 := by omega
    exact List.length_eq_zero.mp this
  · rw [processBlocks_length]; omega

/-- Witness for C3 (amended): threshold 1; a single eligible transaction
emits nothing, two eligible transactions emit exactly one record. -/
theorem bootstrap_first_k_silent_witness :
    processBlocks false 1 outLenC [some { number := 7, txs := [⟨2, some [1]⟩] }] = [] ∧
    (processBlocks false 1 outLenC
      [some { number := 8, txs := [⟨2, some [1]⟩, ⟨2, some [2]⟩] }]).length = 1 :=
  bootstrap_first_k_silent false 1 outLenC _ _ (by decide) (by decide) (by decide)

/-- Counterexample to C3 as stated: with threshold 0 the claim says the very
first eligible transaction (the "next" after zero bootstrapped ones)
produces an `EstimationResult`, but the code consumes it in the bootstrap
branch and emits nothing. -/
theorem bootstrap_zero_counterexample :
    processBlocks false 0 outLenC [some { number := 7, txs := [⟨2, some [1]⟩] }] = [] := by
  decide

/-- Counterexample to C2 as stated: the 5-block, 10-transaction scenario
with threshold 0 yields 9 records, not 10. -/
theorem end_to_end_counterexample :
    (processBlocks false 0 outLenC endToEndJobs).length ≠ 10 := by decide

/-- Claim C2, amended: with `bootstrap_count = 0` the first eligible
transaction is still bootstrapped, so the run over blocks 100..104 (two
non-deposit transactions each) yields 9 records; the first-fed block's
number appears once and each other number twice, and in every record the
zero-byte count plus the non-zero-byte count equals that transaction's
serialized length (payload lengths 4, 1, 2, 5, 1, 1, 2, 3, 4). -/
theorem end_to_end_nine_records :
    (processBlocks false 0 outLenC endToEndJobs).length = 9 ∧
    (processBlocks false 0 outLenC endToEndJobs).map
        (fun r => (r.blockNumber, r.zeroes + r.nonZeroes)) =
      [(100, 4), (101, 1), (101, 2), (102, 5), (102, 1),
       (103, 1), (103, 2), (104, 3), (104, 4)] := by
  constructor <;> decide

/-! ### Writer output layout -/

theorem writerRun_acc (rs : List TxResult) :
    ∀ acc : List Nat,
      rs.foldl
        (fun acc r =>
          acc ++ le32 (r.blockNumber % 4294967296) ++ le32 r.best ++ le32 r.fastlz ++
            le32 r.zeroes ++ le32 r.nonZeroes)
        acc = acc ++ (rs.map serializeResult).flatten := by
  induction rs with
  | nil => intro acc; simp
  | cons r rs ih =>
    intro acc
    simp only [List.foldl_cons, List.map_cons, List.flatten_cons, ih, serializeResult]
    simp [List.append_assoc]

/-- Claim C9: the writer's output is exactly the concatenation of one
20-byte record per result — five fixed-width little-endian `uint32` fields
in the order block number, zlib best, fastlz, zeroes, non-zeroes — with no
header, footer or separator; each 4-byte group decodes back to its field
modulo `2^32`. -/
theorem writer_record_layout (rs : List TxResult) (r : TxResult) (n : Nat) :
    writerRun rs = (rs.map serializeResult).flatten ∧
    (serializeResult r).length = 20 ∧
    fromLe32 (le32 n) = n % 4294967296 := by
  refine ⟨?_, ?_, ?_⟩
  · rw [writerRun, writerRun_acc rs []]; rfl
  · simp [serializeResult, le32]
  · simp only [le32, fromLe32]
    omega

/-! ### Local store, missing blocks and the fetcher's retry path -/

/-- Claim C10: a block number absent from the local store (zero canonical
hash) makes `BlockByNumber` return a nil block with a nil error; the
fetcher's retry loop therefore succeeds on the first attempt (one attempt,
no drop), pushes the nil block as a job, and the worker skips it, emitting
no records — the retry/drop path is never entered. -/
theorem local_missing_block (st : LocalStore) (n : Nat) (trim : Bool) (k : Nat)
    (outLen : OutLen) (h : st.canonicalHash n = 0) :
    LocalClient.BlockByNumber st (n : Int) = (none, none) ∧
    fetchWithRetry (fun _ => LocalClient.BlockByNumber st (n : Int)) 8 = (none, none, 1) ∧
    fetcherHandle (fun _ => LocalClient.BlockByNumber st (n : Int)) 8 = some none ∧
    processBlocks trim k outLen [none] = [] := by
  have hbn : LocalClient.BlockByNumber st (n : Int) = (none, none) := by
    rw [LocalClient.BlockByNumber, if_neg (by omega)]
    simp [Int.toNat_natCast, h]
  have hretry : fetchWithRetry (fun _ => LocalClient.BlockByNumber st (n : Int)) 8 =
      (none, none, 1) := by
    rw [fetchWithRetry, show (8 : Nat) = 7 + 1 from rfl, retryLoop]
    simp [hbn]
  refine ⟨hbn, hretry, ?_, ?_⟩
  · rw [fetcherHandle, hretry]
  · simp [processBlocks, processJobs]

/-- Witness for C10: a concrete empty store and block number 5. -/
theorem local_missing_block_witness :
    LocalClient.BlockByNumber ⟨0, fun _ => none, fun _ => 0, fun _ _ => none⟩ (5 : Int) =
      (none, none) ∧
    fetchWithRetry
      (fun _ => LocalClient.BlockByNumber
        ⟨0, fun _ => none, fun _ => 0, fun _ _ => none⟩ (5 : Int)) 8 = (none, none, 1) ∧
    fetcherHandle
      (fun _ => LocalClient.BlockByNumber
        ⟨0, fun _ => none, fun _ => 0, fun _ _ => none⟩ (5 : Int)) 8 = some none ∧
    processBlocks false 0 outLenC [none] = [] :=
  local_missing_block ⟨0, fun _ => none, fun _ => 0, fun _ _ => none⟩ 5 false 0 outLenC rfl

end Toolkit
